import Mathlib

/-
Verification of the notcl bridge library: a shallow embedding of its
framed message codec, typed message layer, Tcl value encoder,
remote-handle call dispatch, transport state machine and session
teardown logic, together with theorems settling the specified
properties.

Representation choices:
Byte streams and tokens are lists of natural numbers below 256.
Text values are represented by their UTF-8 byte sequences; since the
UTF-8 encoding of Python strings is injective and round-trips, equality
of byte lists coincides with equality of the corresponding strings.
Python dictionaries are represented as association lists in insertion
order together with an insert operation that mirrors dict item
assignment (update in place keeps the position of the first
occurrence, otherwise append).
-/

namespace NoTcl

/-- Bytes and decoded code points are small natural numbers. -/
abbrev Bytes := List Nat

/-- Membership test for a key in an association list, mirroring the
Python expression key in dict. -/
def keyMem {κ ν : Type} [DecidableEq κ] (k : κ) : List (κ × ν) → Bool
  | [] => false
  | p :: rest => if p.1 = k then true else keyMem k rest

/-- Lookup of the value stored under a key, mirroring dict subscript
access; returns none when the key is absent. -/
def dictGet {κ ν : Type} [DecidableEq κ] (k : κ) : List (κ × ν) → Option ν
  | [] => none
  | p :: rest => if p.1 = k then some p.2 else dictGet k rest

/-- Item assignment on a Python dict: an existing key keeps its
position and receives the new value, a fresh key is appended. -/
def dictInsert {κ ν : Type} [DecidableEq κ] (m : List (κ × ν)) (k : κ) (v : ν) : List (κ × ν) :=
  if keyMem k m then m.map (fun p => if p.1 = k then (k, v) else p)
  else m ++ [(k, v)]

/-- Splitting a byte list on the newline byte 10, exactly as Python
bytes split with a one byte separator: the empty input yields one
empty part. -/
def splitNL : Bytes → List Bytes
  | [] => [[]]
  | b :: rest =>
    if b = 10 then [] :: splitNL rest
    else
      match splitNL rest with
      | [] => [[b]]
      | t :: ts => (b :: t) :: ts

/-- Joining tokens with single newline bytes and no trailing newline,
as in the Python join on a newline separator. -/
def joinNL : List Bytes → Bytes
  | [] => []
  | [t] => t
  | t :: t2 :: ts => t ++ 10 :: joinNL (t2 :: ts)

/-- The base64 alphabet: sextet to ASCII byte. -/
def b64chr (n : Nat) : Nat :=
  if n < 26 then 65 + n
  else if n < 52 then 97 + (n - 26)
  else if n < 62 then 48 + (n - 52)
  else if n = 62 then 43
  else 47

/-- Inverse of the base64 alphabet; none outside the alphabet. -/
def b64chrInv (c : Nat) : Option Nat :=
  if 65 ≤ c ∧ c ≤ 90 then some (c - 65)
  else if 97 ≤ c ∧ c ≤ 122 then some (26 + (c - 97))
  else if 48 ≤ c ∧ c ≤ 57 then some (52 + (c - 48))
  else if c = 43 then some 62
  else if c = 47 then some 63
  else none

/-- Standard base64 encoding of a byte list, three bytes to four
characters, padded with the byte 61 for the equals sign. -/
def b64encode : Bytes → Bytes
  | [] => []
  | [a] => [b64chr (a / 4), b64chr (a % 4 * 16), 61, 61]
  | [a, b] => [b64chr (a / 4), b64chr (a % 4 * 16 + b / 16), b64chr (b % 16 * 4), 61]
  | a :: b :: c :: rest =>
    b64chr (a / 4) :: b64chr (a % 4 * 16 + b / 16) :: b64chr (b % 16 * 4 + c / 64) ::
      b64chr (c % 64) :: b64encode rest

/-- Base64 decoding of groups of four characters with padding handling;
none on malformed input. -/
def b64decodeGroups : Bytes → Option Bytes
  | [] => some []
  | c1 :: c2 :: c3 :: c4 :: rest =>
    match b64chrInv c1, b64chrInv c2 with
    | some s1, some s2 =>
      if c3 = 61 then
        if c4 = 61 ∧ rest = [] then some [s1 * 4 + s2 / 16] else none
      else
        match b64chrInv c3 with
        | some s3 =>
          if c4 = 61 then
            if rest = [] then some [s1 * 4 + s2 / 16, s2 % 16 * 16 + s3 / 4] else none
          else
            match b64chrInv c4, b64decodeGroups rest with
            | some s4, some tail =>
              some ((s1 * 4 + s2 / 16) :: (s2 % 16 * 16 + s3 / 4) :: (s3 % 4 * 64 + s4) :: tail)
            | _, _ => none
        | none => none
    | _, _ => none
  | _ => none

/-- Base64 decoding as the Python default performs it: characters
outside the alphabet are discarded before the strict group decode. -/
def b64decode (input : Bytes) : Option Bytes :=
  b64decodeGroups (input.filter fun c => (b64chrInv c).isSome || c == 61)

/-- Failure kinds of the raw message codec; badUtf8 stands for the
UnicodeDecodeError raised when a decoded value is not UTF-8. -/
inductive CodecErr where
  | invalidKey
  | oddTokenCount
  | nonAsciiKey
  | badBase64
  | badUtf8
deriving DecidableEq

/-- A UTF-8 continuation byte. -/
def contByte (c : Nat) : Bool := 128 ≤ c && c ≤ 191

/-- Strict UTF-8 validity of a byte sequence, as the Python utf8
decoder enforces it: one byte below 128, or a two byte sequence led
by 194 to 223, or a three byte sequence led by 224 to 239 with the
restricted first continuation for 224 and 237 (excluding overlong
forms and surrogates), or a four byte sequence led by 240 to 244 with
the restricted first continuation for 240 and 244 (excluding overlong
forms and code points beyond the last plane). -/
def utf8Valid : Bytes → Bool
  | [] => true
  | b :: rest =>
    if b < 128 then utf8Valid rest
    else if 194 ≤ b && b ≤ 223 then
      match rest with
      | c :: rest2 => contByte c && utf8Valid rest2
      | [] => false
    else if 224 ≤ b && b ≤ 239 then
      match rest with
      | c :: d :: rest2 =>
        (if b = 224 then 160 ≤ c && c ≤ 191
         else if b = 237 then 128 ≤ c && c ≤ 159
         else contByte c) && contByte d && utf8Valid rest2
      | _ => false
    else if 240 ≤ b && b ≤ 244 then
      match rest with
      | c :: d :: e :: rest2 =>
        (if b = 240 then 144 ≤ c && c ≤ 191
         else if b = 244 then 128 ≤ c && c ≤ 143
         else contByte c) && contByte d && contByte e && utf8Valid rest2
      | _ => false
    else false

/-- A raw message at the byte level: keys as code point lists, values
as UTF-8 byte lists, in insertion order. -/
abbrev RawMsg := List (Bytes × Bytes)

/-- The key check performed by the source on encode: a full match of
the regular expression class a to z, A to Z, underscore or plus,
repeated zero or more times. -/
def codeKeyOk (k : Bytes) : Bool :=
  k.all fun c => (97 ≤ c && c ≤ 122) || (65 ≤ c && c ≤ 90) || c == 95 || c == 43

/-- The key grammar as the specification states it: one or more of
a to z, A to Z or underscore. -/
def specKeyGrammar (k : Bytes) : Bool :=
  !k.isEmpty && k.all fun c => (97 ≤ c && c ≤ 122) || (65 ≤ c && c ≤ 90) || c == 95

/-- Token list a message serialises to: for each item the key bytes
followed by the base64 encoding of the value bytes. -/
def pairTokens : RawMsg → List Bytes
  | [] => []
  | p :: rest => p.1 :: b64encode p.2 :: pairTokens rest

/-- Serialisation loop of send_to_pipe: each key is checked against
the key regular expression of the source, then key token and base64
value token are emitted. -/
def sendTokens : RawMsg → Except CodecErr (List Bytes)
  | [] => .ok []
  | p :: rest =>
    if codeKeyOk p.1 then
      match sendTokens rest with
      | .ok ts => .ok (p.1 :: b64encode p.2 :: ts)
      | .error e => .error e
    else .error .invalidKey

/-- The byte stream send_to_pipe writes: tokens joined by single
newlines with no trailing newline. -/
def send_to_pipe (m : RawMsg) : Except CodecErr Bytes :=
  match sendTokens m with
  | .ok ts => .ok (joinNL ts)
  | .error e => .error e

/-- Pair consumption loop of from_pipe: pop a key, ASCII decode it,
pop a value, base64 decode it, UTF-8 decode the result, store by dict
item assignment. -/
def readPairs : List Bytes → RawMsg → Except CodecErr RawMsg
  | [], acc => .ok acc
  | k :: v :: rest, acc =>
    if k.all (· < 128) then
      match b64decode v with
      | some bytes =>
        if utf8Valid bytes then readPairs rest (dictInsert acc k bytes)
        else .error .badUtf8
      | none => .error .badBase64
    else .error .nonAsciiKey
  | [_], _ => .error .oddTokenCount

/-- Decoding of from_pipe: read all bytes until end of file, split on
newline, require an even number of parts and consume them pairwise. -/
def from_pipe (stream : Bytes) : Except CodecErr RawMsg :=
  let msg_list := splitNL stream
  if msg_list.length % 2 = 0 then readPairs msg_list [] else .error .oddTokenCount

/-- Accumulating insertion of decoded pairs into a dict, the pure core
of the from_pipe loop. -/
def fromPairsAux {κ ν : Type} [DecidableEq κ] (acc : List (κ × ν)) : List (κ × ν) → List (κ × ν)
  | [] => acc
  | p :: rest => fromPairsAux (dictInsert acc p.1 p.2) rest

/-- Value of the last occurrence of a key in a pair list. -/
def lastVal {κ ν : Type} [DecidableEq κ] (k : κ) : List (κ × ν) → Option ν
  | [] => none
  | p :: rest =>
    match lastVal k rest with
    | some v => some v
    | none => if p.1 = k then some p.2 else none

/-- Keys of a pair list in order of first occurrence. -/
def firstKeys {κ ν : Type} [DecidableEq κ] : List (κ × ν) → List κ
  | [] => []
  | p :: rest => p.1 :: (firstKeys rest).filter (fun x => !(x == p.1))

/-- Number of occurrences of an element in a list. -/
def occCount {κ : Type} [DecidableEq κ] (k : κ) : List κ → Nat
  | [] => 0
  | x :: rest => (if x = k then 1 else 0) + occCount k rest

/-- A typed message class: its tag is the Python class name and it
declares the fixed set of field names documented as mandatory. -/
structure MsgClass where
  tag : String
  keys_required : List String
deriving DecidableEq

/-- The handshake message the child sends once after startup, with
its tag and its four mandatory keys. -/
def TclHello : MsgClass :=
  ⟨"TclHello", ["patchlevel", "commands", "globals", "nameofexecutable"]⟩

/-- The request message carrying a Tcl source string to evaluate. -/
def PyProcedureCall : MsgClass :=
  ⟨"PyProcedureCall", ["command"]⟩

/-- The response message carrying error code, result text and the
command index assigned by the child. -/
def TclProcedureResult : MsgClass :=
  ⟨"TclProcedureResult", ["err_code", "result", "cmd_idx"]⟩

/-- The termination request message with its mandatory quit key. -/
def PyExit : MsgClass :=
  ⟨"PyExit", ["quit"]⟩

/-- Failures of typed message construction: the wrong class signal the
source raises and catches, and the uncaught mapping KeyError raised
when the raw message has no class entry at all. -/
inductive MsgErr where
  | wrongMessageClass
  | keyError
deriving DecidableEq

/-- Construction of a typed message from a received raw mapping, as in
the source initialiser: look up the class entry, compare it with the
class name, and on success keep the whole mapping as the data. -/
def messageInit (cls : MsgClass) (source : List (String × String)) :
    Except MsgErr (List (String × String)) :=
  match dictGet "class" source with
  | none => .error .keyError
  | some c => if c = cls.tag then .ok source else .error .wrongMessageClass

/-- The helper converting a raw message to a typed message: try each
permitted class in order, skipping on the wrong class signal only, and
raise the wrong class failure when the list is exhausted. -/
def to_message (source : List (String × String)) :
    List MsgClass → Except MsgErr (MsgClass × List (String × String))
  | [] => .error .wrongMessageClass
  | cls :: rest =>
    match messageInit cls source with
    | .ok d => .ok (cls, d)
    | .error .wrongMessageClass => to_message source rest
    | .error .keyError => .error .keyError

/-- Python values the Tcl value encoder accepts: string scalars taken
up to their str image, booleans, sequences, mappings and remote
handles carrying the child side index and the string value. -/
inductive PyObj where
  | str (s : String)
  | bool (b : Bool)
  | seq (xs : List PyObj)
  | dict (xs : List (PyObj × PyObj))
  | ref (idx : Nat) (value : String)

/-- Left brace as a character. -/
def lbrace : Char := Char.ofNat 123

/-- Right brace as a character. -/
def rbrace : Char := Char.ofNat 125

/-- Escaping of braces: a backslash is inserted before every brace,
as the substitution in the source performs it. -/
def escapeBracesChars : List Char → List Char
  | [] => []
  | c :: rest =>
    if c = lbrace ∨ c = rbrace then Char.ofNat 92 :: c :: escapeBracesChars rest
    else c :: escapeBracesChars rest

/-- Escaping of braces on strings. -/
def escapeBraces (s : String) : String := String.mk (escapeBracesChars s.data)

/-- Wrapping a string in braces. -/
def braceWrap (s : String) : String := "\x7b" ++ s ++ "\x7d"

/-- Joining strings with single spaces, as the Python join used when
assembling commands and sequence encodings. -/
def joinSpace : List String → String
  | [] => ""
  | [s] => s
  | s :: s2 :: rest => s ++ " " ++ joinSpace (s2 :: rest)

/-- The str image of a Python boolean. -/
def pyBoolStr (b : Bool) : String := if b then "True" else "False"

/-- The reference string of a remote handle with a given index. -/
def refStr (idx : Nat) : String := "$cmd_results(" ++ toString idx ++ ")"

mutual

/-- The Tcl value encoder of the source: sequences encode their
elements nested and join them inside braces; mappings flatten their
items by a reduce that fails on an empty mapping, then encode as a
sequence; a remote handle at top level becomes its reference string;
everything else is the brace escaped str image wrapped in braces. -/
def encode : PyObj → Bool → Except String String
  | .seq xs, _ =>
    match encodeList xs with
    | .ok parts => .ok (braceWrap (joinSpace parts))
    | .error e => .error e
  | .dict xs, _ =>
    if xs.isEmpty then .error "TypeError: reduce of empty iterable with no initial value"
    else
      match encodePairs xs with
      | .ok parts => .ok (braceWrap (joinSpace parts))
      | .error e => .error e
  | .ref idx _, false => .ok (refStr idx)
  | .ref _ v, true => .ok (braceWrap (escapeBraces v))
  | .str s, _ => .ok (braceWrap (escapeBraces s))
  | .bool b, _ => .ok (braceWrap (escapeBraces (pyBoolStr b)))

/-- Nested encoding of the elements of a sequence, in order. -/
def encodeList : List PyObj → Except String (List String)
  | [] => .ok []
  | x :: rest =>
    match encode x true with
    | .ok s =>
      match encodeList rest with
      | .ok ss => .ok (s :: ss)
      | .error e => .error e
    | .error e => .error e

/-- Nested encoding of the flattened items of a mapping, keys and
values alternating in iteration order. -/
def encodePairs : List (PyObj × PyObj) → Except String (List String)
  | [] => .ok []
  | (k, v) :: rest =>
    match encode k true with
    | .ok sk =>
      match encode v true with
      | .ok sv =>
        match encodePairs rest with
        | .ok ss => .ok (sk :: sv :: ss)
        | .error e => .error e
      | .error e => .error e
    | .error e => .error e

end

mutual

/-- Absence of an empty mapping anywhere inside a value. -/
def noEmptyDict : PyObj → Bool
  | .str _ => true
  | .bool _ => true
  | .ref _ _ => true
  | .seq xs => noEmptyDictList xs
  | .dict xs => !xs.isEmpty && noEmptyDictPairs xs

/-- Absence of an empty mapping inside any element of a list. -/
def noEmptyDictList : List PyObj → Bool
  | [] => true
  | x :: rest => noEmptyDict x && noEmptyDictList rest

/-- Absence of an empty mapping inside any item of a mapping. -/
def noEmptyDictPairs : List (PyObj × PyObj) → Bool
  | [] => true
  | (k, v) :: rest => noEmptyDict k && noEmptyDict v && noEmptyDictPairs rest

end

/-- Rendering of keyword arguments: a boolean true contributes its
dash key alone, a boolean false contributes nothing, any other value
contributes the dash key followed by its top level encoding. -/
def kwargsTokens : List (String × PyObj) → Except String (List String)
  | [] => .ok []
  | (k, v) :: rest =>
    match v with
    | .bool b =>
      match kwargsTokens rest with
      | .ok ts => .ok ((if b then ["-" ++ k] else []) ++ ts)
      | .error e => .error e
    | _ =>
      match encode v false with
      | .ok ev =>
        match kwargsTokens rest with
        | .ok ts => .ok (("-" ++ k) :: ev :: ts)
        | .error e => .error e
      | .error e => .error e

/-- Rendering of positional arguments by the top level encoder. -/
def argsTokens : List PyObj → Except String (List String)
  | [] => .ok []
  | a :: rest =>
    match encode a false with
    | .ok s =>
      match argsTokens rest with
      | .ok ts => .ok (s :: ts)
      | .error e => .error e
    | .error e => .error e

/-- The command line the session builds for a procedure call: the
command name, then rendered keyword arguments, then rendered
positional arguments, joined by spaces. This is the string passed on
to eval. -/
def tclToolProcCall (cmd : String) (args : List PyObj) (kwargs : List (String × PyObj)) :
    Except String String :=
  match kwargsTokens kwargs with
  | .ok kts =>
    match argsTokens args with
    | .ok ats => .ok (joinSpace (cmd :: (kts ++ ats)))
    | .error e => .error e
  | .error e => .error e

/-- Method call dispatch on a remote handle: the position policy
decides whether the handle becomes the command name with the method
prepended to the arguments, the first positional argument, or the
last one; any other policy value is a configuration error raised
before any command is built or sent. -/
def refProcCall (pos : String) (idx : Nat) (value : String) (name : String)
    (args : List PyObj) (kwargs : List (String × PyObj)) : Except String String :=
  if pos = "first" then tclToolProcCall (refStr idx) (.str name :: args) kwargs
  else if pos = "second" then tclToolProcCall name (.ref idx value :: args) kwargs
  else if pos = "last" then tclToolProcCall name (args ++ [.ref idx value]) kwargs
  else .error "called_object_pos must be first, second or last."

/-- Transport states of the bridge. -/
inductive BState where
  | NotListening
  | WaitForRecv
  | WaitForSend
deriving DecidableEq

/-- Observable pipe actions of one transport operation. -/
inductive FifoOp where
  | openTcl2py
  | readTcl2py
  | closeTcl2py
  | openPy2tcl
  | writePy2tcl
  | closePy2tcl
deriving DecidableEq

/-- Result of one transport operation: the pipe actions performed, the
transport state afterwards, and whether the precondition held; on a
violated precondition nothing is touched and the state is unchanged. -/
structure OpResult where
  ops : List FifoOp
  state : BState
  ok : Bool
deriving DecidableEq

/-- Receiving one raw message: permitted only in the receive state,
which the leading assertion enforces before any pipe is opened. -/
def recv_raw (s : BState) : OpResult :=
  if s = .WaitForRecv then ⟨[.openTcl2py, .readTcl2py, .closeTcl2py], .WaitForSend, true⟩
  else ⟨[], s, false⟩

/-- Sending one raw message: permitted only in the send state, which
the leading assertion enforces before any pipe is opened. -/
def send_raw (s : BState) : OpResult :=
  if s = .WaitForSend then ⟨[.openPy2tcl, .writePy2tcl, .closePy2tcl], .WaitForRecv, true⟩
  else ⟨[], s, false⟩

/-- A remote handle produced by a successful evaluation. -/
structure RemoteRef where
  cmd_idx : Int
  value : String
  cmd : String
deriving DecidableEq

/-- Outcome of one evaluation: a violated transport precondition with
the unchanged state, a Tcl error with the transport state left behind
and the result text, or a handle with the state left behind. -/
inductive EvalResult where
  | precondViolation (s : BState)
  | tclErr (s : BState) (text : String)
  | ok (s : BState) (r : RemoteRef)
deriving DecidableEq

/-- One evaluation as the session performs it: send the procedure
call, receive the procedure result, then either raise the Tcl error
carrying the result text or return a handle. The integer fields stand
for the parsed err_code and cmd_idx entries of the response. -/
def evalStep (s : BState) (cmd : String) (err_code : Int) (result : String)
    (cmd_idx : Int) : EvalResult :=
  let sr := send_raw s
  if sr.ok = false then .precondViolation s
  else
    let rr := recv_raw sr.state
    if rr.ok = false then .precondViolation sr.state
    else if err_code ≠ 0 then .tclErr rr.state result
    else .ok rr.state ⟨cmd_idx, result, cmd⟩

/-- How the scope body of a session ended. -/
inductive BodyResult where
  | finished
  | raisedEarlyExit
  | raisedOther
deriving DecidableEq

/-- What propagates out of the session scope. -/
inductive ScopeOutcome where
  | normal
  | childEarlyExit
  | bodyException
  | calledProcessError (rc : Int)
deriving DecidableEq

/-- Observable effects of leaving the session scope: the outcome, who
was sent the exit message, and with which quit flag. -/
structure ExitTrace where
  outcome : ScopeOutcome
  sentPyExit : Bool
  quitFlag : Option Bool
deriving DecidableEq

/-- The teardown logic of the session scope, mirroring the context
manager of the source: an early exit signal from the body suppresses
the exit message; a body exception forces quit when abort on error is
set; the final wait raises the called process error only when no
early exit was recorded and the return code is nonzero; otherwise the
body exception, the early exit signal, or nothing propagates. -/
def contextExit (body : BodyResult) (interact abort_on_error pyExitSendFails : Bool)
    (rc : Int) : ExitTrace :=
  let quit : Bool :=
    if body = BodyResult.raisedOther then (if abort_on_error then true else !interact)
    else !interact
  let early0 : Bool := body = BodyResult.raisedEarlyExit
  let attempt : Bool := !early0
  let early : Bool := early0 || (attempt && pyExitSendFails)
  let finallyRaises : Option ScopeOutcome :=
    if early then none else if rc = 0 then none else some (.calledProcessError rc)
  let outcome : ScopeOutcome :=
    match finallyRaises with
    | some o => o
    | none =>
      match body with
      | .raisedEarlyExit => .childEarlyExit
      | .raisedOther => .bodyException
      | .finished => .normal
  ⟨outcome, attempt, if attempt then some quit else none⟩

theorem b64chrInv_b64chr : ∀ n, n < 64 → b64chrInv (b64chr n) = some n := by decide

theorem b64chr_ne_10 : ∀ n, n < 64 → b64chr n ≠ 10 := by decide

theorem b64chr_ne_61 : ∀ n, n < 64 → b64chr n ≠ 61 := by decide

theorem b64chr_valid : ∀ n, n < 64 → ((b64chrInv (b64chr n)).isSome || (b64chr n == 61)) = true := by
  decide

theorem b64encode_mem : ∀ (bs : Bytes), (∀ b ∈ bs, b < 256) →
    ∀ x ∈ b64encode bs, (((b64chrInv x).isSome || (x == 61)) = true ∧ x ≠ 10)
  | [], _, x, hx => by simp [b64encode] at hx
  | [a], h, x, hx => by
    have ha : a < 256 := h a (by simp)
    simp only [b64encode, List.mem_cons, List.not_mem_nil, or_false] at hx
    rcases hx with h1 | h1 | h1 | h1 <;> subst h1
    · exact ⟨b64chr_valid _ (by omega), b64chr_ne_10 _ (by omega)⟩
    · exact ⟨b64chr_valid _ (by omega), b64chr_ne_10 _ (by omega)⟩
    · exact ⟨by simp, by omega⟩
    · exact ⟨by simp, by omega⟩
  | [a, b], h, x, hx => by
    have ha : a < 256 := h a (by simp)
    have hb : b < 256 := h b (by simp)
    simp only [b64encode, List.mem_cons, List.not_mem_nil, or_false] at hx
    rcases hx with h1 | h1 | h1 | h1 <;> subst h1
    · exact ⟨b64chr_valid _ (by omega), b64chr_ne_10 _ (by omega)⟩
    · exact ⟨b64chr_valid _ (by omega), b64chr_ne_10 _ (by omega)⟩
    · exact ⟨b64chr_valid _ (by omega), b64chr_ne_10 _ (by omega)⟩
    · exact ⟨by simp, by omega⟩
  | a :: b :: c :: rest, h, x, hx => by
    have ha : a < 256 := h a (by simp)
    have hb : b < 256 := h b (by simp)
    have hc : c < 256 := h c (by simp)
    simp only [b64encode, List.mem_cons] at hx
    rcases hx with h1 | h1 | h1 | h1 | h1
    · exact h1 ▸ ⟨b64chr_valid _ (by omega), b64chr_ne_10 _ (by omega)⟩
    · exact h1 ▸ ⟨b64chr_valid _ (by omega), b64chr_ne_10 _ (by omega)⟩
    · exact h1 ▸ ⟨b64chr_valid _ (by omega), b64chr_ne_10 _ (by omega)⟩
    · exact h1 ▸ ⟨b64chr_valid _ (by omega), b64chr_ne_10 _ (by omega)⟩
    · exact b64encode_mem rest (fun y hy => h y (by simp [hy])) x h1

theorem b64decodeGroups_encode : ∀ (bs : Bytes), (∀ b ∈ bs, b < 256) →
    b64decodeGroups (b64encode bs) = some bs
  | [], _ => rfl
  | [a], h => by
    have ha : a < 256 := h a (by simp)
    have h1 := b64chrInv_b64chr (a / 4) (by omega)
    have h2 := b64chrInv_b64chr (a % 4 * 16) (by omega)
    simp only [b64encode, b64decodeGroups, h1, h2]
    simp only [if_pos rfl, reduceIte, and_self]
    have e1 : a / 4 * 4 + a % 4 * 16 / 16 = a := by omega
    rw [e1]
  | [a, b], h => by
    have ha : a < 256 := h a (by simp)
    have hb : b < 256 := h b (by simp)
    have h1 := b64chrInv_b64chr (a / 4) (by omega)
    have h2 := b64chrInv_b64chr (a % 4 * 16 + b / 16) (by omega)
    have h3 := b64chrInv_b64chr (b % 16 * 4) (by omega)
    have hne3 := b64chr_ne_61 (b % 16 * 4) (by omega)
    simp only [b64encode, b64decodeGroups, h1, h2, h3, if_neg hne3, if_pos rfl, reduceIte]
    congr 1
    have e1 : a / 4 * 4 + (a % 4 * 16 + b / 16) / 16 = a := by omega
    have e2 : (a % 4 * 16 + b / 16) % 16 * 16 + b % 16 * 4 / 4 = b := by omega
    rw [e1, e2]
  | a :: b :: c :: rest, h => by
    have ha : a < 256 := h a (by simp)
    have hb : b < 256 := h b (by simp)
    have hc : c < 256 := h c (by simp)
    have h1 := b64chrInv_b64chr (a / 4) (by omega)
    have h2 := b64chrInv_b64chr (a % 4 * 16 + b / 16) (by omega)
    have h3 := b64chrInv_b64chr (b % 16 * 4 + c / 64) (by omega)
    have h4 := b64chrInv_b64chr (c % 64) (by omega)
    have hne3 := b64chr_ne_61 (b % 16 * 4 + c / 64) (by omega)
    have hne4 := b64chr_ne_61 (c % 64) (by omega)
    have ih := b64decodeGroups_encode rest (fun y hy => h y (by simp [hy]))
    simp only [b64encode, b64decodeGroups, h1, h2, h3, h4, if_neg hne3, if_neg hne4, ih]
    congr 1
    have e1 : a / 4 * 4 + (a % 4 * 16 + b / 16) / 16 = a := by omega
    have e2 : (a % 4 * 16 + b / 16) % 16 * 16 + (b % 16 * 4 + c / 64) / 4 = b := by omega
    have e3 : (b % 16 * 4 + c / 64) % 4 * 64 + c % 64 = c := by omega
    rw [e1, e2, e3]

theorem b64decode_b64encode (bs : Bytes) (hb : ∀ b ∈ bs, b < 256) :
    b64decode (b64encode bs) = some bs := by
  unfold b64decode
  rw [List.filter_eq_self.mpr (fun x hx => (b64encode_mem bs hb x hx).1)]
  exact b64decodeGroups_encode bs hb

theorem splitNL_no_nl : ∀ (t : Bytes), (∀ b ∈ t, b ≠ 10) → splitNL t = [t]
  | [], _ => rfl
  | b :: rest, h => by
    have hb : b ≠ 10 := h b (by simp)
    have ih := splitNL_no_nl rest (fun x hx => h x (by simp [hx]))
    simp [splitNL, hb, ih]

theorem splitNL_append : ∀ (t s : Bytes), (∀ b ∈ t, b ≠ 10) →
    splitNL (t ++ 10 :: s) = t :: splitNL s
  | [], s, _ => by simp [splitNL]
  | b :: t, s, h => by
    have hb : b ≠ 10 := h b (by simp)
    have ih := splitNL_append t s (fun x hx => h x (by simp [hx]))
    simp [splitNL, hb, ih]

theorem splitNL_joinNL : ∀ (ts : List Bytes), ts ≠ [] →
    (∀ t ∈ ts, ∀ b ∈ t, b ≠ 10) → splitNL (joinNL ts) = ts
  | [], hne, _ => absurd rfl hne
  | [t], _, h => by simp [joinNL, splitNL_no_nl t (h t (by simp))]
  | t :: t2 :: rest, _, h => by
    have ih := splitNL_joinNL (t2 :: rest) (by simp)
      (fun x hx => h x (List.mem_cons_of_mem _ hx))
    simp only [joinNL]
    rw [splitNL_append t _ (h t (by simp)), ih]

theorem keyMem_nil {κ ν : Type} [DecidableEq κ] (k : κ) :
    keyMem k ([] : List (κ × ν)) = false := rfl

theorem keyMem_append {κ ν : Type} [DecidableEq κ] (k k2 : κ) (v : ν) :
    ∀ (m : List (κ × ν)), keyMem k (m ++ [(k2, v)]) = (keyMem k m || (k2 == k))
  | [] => by
    by_cases h : k2 = k <;> simp [keyMem, h]
  | p :: m => by
    by_cases h : p.1 = k <;> simp [keyMem, h, keyMem_append k k2 v m]

theorem dictInsert_not_mem {κ ν : Type} [DecidableEq κ] (m : List (κ × ν)) (k : κ) (v : ν)
    (h : keyMem k m = false) : dictInsert m k v = m ++ [(k, v)] := by
  simp [dictInsert, h]

theorem dictGet_map_update_ne {κ ν : Type} [DecidableEq κ] (k k2 : κ) (v : ν)
    (hne : k2 ≠ k) : ∀ (m : List (κ × ν)),
    dictGet k2 (m.map fun p => if p.1 = k then (k, v) else p) = dictGet k2 m
  | [] => rfl
  | p :: m => by
    have ih := dictGet_map_update_ne k k2 v hne m
    by_cases h : p.1 = k
    · have hp2 : p.1 ≠ k2 := by rw [h]; exact fun e => hne e.symm
      simp only [List.map_cons, if_pos h, dictGet]
      rw [if_neg (fun e : k = k2 => hne e.symm), if_neg hp2, ih]
    · simp only [List.map_cons, if_neg h, dictGet]
      by_cases h2 : p.1 = k2
      · rw [if_pos h2, if_pos h2]
      · rw [if_neg h2, if_neg h2, ih]

theorem dictGet_map_update_self {κ ν : Type} [DecidableEq κ] (k : κ) (v : ν) :
    ∀ (m : List (κ × ν)), keyMem k m = true →
    dictGet k (m.map fun p => if p.1 = k then (k, v) else p) = some v
  | [], h => by simp [keyMem] at h
  | p :: m, h => by
    by_cases hp : p.1 = k
    · simp [dictGet, hp]
    · have hm : keyMem k m = true := by simpa [keyMem, hp] using h
      simp [dictGet, hp, dictGet_map_update_self k v m hm]

theorem dictGet_append_not_mem {κ ν : Type} [DecidableEq κ] (k : κ) (l : List (κ × ν)) :
    ∀ (m : List (κ × ν)), keyMem k m = false → dictGet k (m ++ l) = dictGet k l
  | [], _ => rfl
  | p :: m, h => by
    have hp : p.1 ≠ k := by
      intro e
      simp [keyMem, e] at h
    have hm : keyMem k m = false := by simpa [keyMem, hp] using h
    simp [dictGet, hp, dictGet_append_not_mem k l m hm]

theorem dictGet_insert_self {κ ν : Type} [DecidableEq κ] (m : List (κ × ν)) (k : κ) (v : ν) :
    dictGet k (dictInsert m k v) = some v := by
  unfold dictInsert
  split
  · exact dictGet_map_update_self k v m (by assumption)
  · next h =>
    rw [dictGet_append_not_mem k _ m (by simpa using h)]
    simp [dictGet]

theorem dictGet_append {κ ν : Type} [DecidableEq κ] (k : κ) (l : List (κ × ν)) :
    ∀ (m : List (κ × ν)), dictGet k (m ++ l) =
      match dictGet k m with
      | some v => some v
      | none => dictGet k l
  | [] => rfl
  | p :: m => by
    by_cases hp : p.1 = k <;> simp [dictGet, hp, dictGet_append k l m]

theorem dictGet_insert_ne {κ ν : Type} [DecidableEq κ] (m : List (κ × ν)) (k k2 : κ) (v : ν)
    (hne : k2 ≠ k) : dictGet k2 (dictInsert m k v) = dictGet k2 m := by
  unfold dictInsert
  split
  · exact dictGet_map_update_ne k k2 v hne m
  · rw [dictGet_append k2 _ m]
    cases hg : dictGet k2 m
    · simp [dictGet, Ne.symm hne]
    · rfl

theorem keys_map_update {κ ν : Type} [DecidableEq κ] (k : κ) (v : ν) :
    ∀ (m : List (κ × ν)),
    (m.map fun p => if p.1 = k then (k, v) else p).map Prod.fst = m.map Prod.fst
  | [] => rfl
  | p :: m => by
    have ih := keys_map_update k v m
    by_cases h : p.1 = k
    · simp only [List.map_cons, if_pos h, ih]
      rw [h]
    · simp only [List.map_cons, if_neg h, ih]

theorem keyMem_map_update {κ ν : Type} [DecidableEq κ] (x k : κ) (v : ν) :
    ∀ (m : List (κ × ν)),
    keyMem x (m.map fun p => if p.1 = k then (k, v) else p) = keyMem x m
  | [] => rfl
  | p :: m => by
    have ih := keyMem_map_update x k v m
    by_cases h : p.1 = k
    · by_cases h2 : p.1 = x
      · have hx : k = x := h.symm.trans h2
        simp [keyMem, List.map_cons, if_pos h, hx, h2]
      · have hk : ¬ k = x := fun e => h2 (h.symm ▸ e ▸ rfl)
        simp only [List.map_cons, if_pos h, keyMem, if_neg hk, if_neg h2, ih]
    · simp only [List.map_cons, if_neg h, keyMem, ih]

theorem keys_dictInsert {κ ν : Type} [DecidableEq κ] (m : List (κ × ν)) (k : κ) (v : ν) :
    (dictInsert m k v).map Prod.fst =
      if keyMem k m then m.map Prod.fst else m.map Prod.fst ++ [k] := by
  unfold dictInsert
  split
  · exact keys_map_update k v m
  · simp

theorem keyMem_dictInsert {κ ν : Type} [DecidableEq κ] (x k : κ) (v : ν)
    (m : List (κ × ν)) : keyMem x (dictInsert m k v) = (keyMem x m || (x == k)) := by
  unfold dictInsert
  split
  · next h =>
    rw [keyMem_map_update]
    by_cases hxk : x = k
    · subst hxk
      simp [h]
    · simp [hxk]
  · next h =>
    rw [keyMem_append]
    by_cases hxk : x = k
    · subst hxk
      rfl
    · have h1 : (k == x) = false := beq_eq_false_iff_ne.mpr (Ne.symm hxk)
      have h2 : (x == k) = false := beq_eq_false_iff_ne.mpr hxk
      rw [h1, h2]

theorem filter_not_or {κ : Type} (q r : κ → Bool) :
    ∀ (l : List κ),
    l.filter (fun x => !(q x || r x)) = (l.filter fun x => !r x).filter fun x => !q x
  | [] => rfl
  | x :: l => by
    have ih := filter_not_or q r l
    cases hq : q x <;> cases hr : r x <;>
      simp [List.filter, hq, hr, ih]

theorem fromPairsAux_get {κ ν : Type} [DecidableEq κ] (k : κ) :
    ∀ (ps : List (κ × ν)) (acc : List (κ × ν)),
    dictGet k (fromPairsAux acc ps) =
      match lastVal k ps with
      | some v => some v
      | none => dictGet k acc
  | [], acc => by simp [fromPairsAux, lastVal]
  | p :: rest, acc => by
    have ih := fromPairsAux_get k rest (dictInsert acc p.1 p.2)
    simp only [fromPairsAux, lastVal]
    rw [ih]
    cases hl : lastVal k rest
    · by_cases hp : p.1 = k
      · subst hp
        simp [dictGet_insert_self]
      · simp [hp, dictGet_insert_ne acc p.1 k p.2 (fun e => hp e.symm)]
    · rfl

theorem fromPairsAux_keys {κ ν : Type} [DecidableEq κ] :
    ∀ (ps : List (κ × ν)) (acc : List (κ × ν)),
    (fromPairsAux acc ps).map Prod.fst =
      acc.map Prod.fst ++ (firstKeys ps).filter (fun x => !keyMem x acc)
  | [], acc => by simp [fromPairsAux, firstKeys]
  | p :: rest, acc => by
    have ih := fromPairsAux_keys rest (dictInsert acc p.1 p.2)
    simp only [fromPairsAux, firstKeys]
    rw [ih, keys_dictInsert]
    have hpred : ∀ x, keyMem x (dictInsert acc p.1 p.2) = (keyMem x acc || (x == p.1)) :=
      fun x => keyMem_dictInsert x p.1 p.2 acc
    have hfilter : (firstKeys rest).filter (fun x => !keyMem x (dictInsert acc p.1 p.2)) =
        ((firstKeys rest).filter fun x => !(x == p.1)).filter fun x => !keyMem x acc := by
      rw [List.filter_congr (fun x _ => by rw [hpred x])]
      exact filter_not_or (fun x => keyMem x acc) (fun x => x == p.1) (firstKeys rest)
    rw [hfilter]
    cases hm : keyMem p.1 acc
    · simp [List.filter_cons, hm, List.append_assoc]
    · simp [List.filter_cons, hm]

theorem fromPairsAux_of_nodup {κ ν : Type} [DecidableEq κ] :
    ∀ (ps : List (κ × ν)) (acc : List (κ × ν)), (ps.map Prod.fst).Nodup →
    (∀ p ∈ ps, keyMem p.1 acc = false) → fromPairsAux acc ps = acc ++ ps
  | [], acc, _, _ => by simp [fromPairsAux]
  | p :: rest, acc, hnd, hdisj => by
    have h0 : keyMem p.1 acc = false := hdisj p (by simp)
    have hhead : p.1 ∉ rest.map Prod.fst := by
      have := hnd
      simp only [List.map_cons, List.nodup_cons] at this
      exact this.1
    have hdisj2 : ∀ q ∈ rest, keyMem q.1 (acc ++ [(p.1, p.2)]) = false := by
      intro q hq
      rw [keyMem_append]
      have h1 : keyMem q.1 acc = false := hdisj q (List.mem_cons_of_mem _ hq)
      have h2 : ¬ p.1 = q.1 := by
        intro e
        exact hhead (e ▸ List.mem_map_of_mem Prod.fst hq)
      simp [h1, h2]
    have hnd2 : (rest.map Prod.fst).Nodup := by
      simp only [List.map_cons, List.nodup_cons] at hnd
      exact hnd.2
    rw [fromPairsAux, dictInsert_not_mem acc p.1 p.2 h0,
      fromPairsAux_of_nodup rest (acc ++ [(p.1, p.2)]) hnd2 hdisj2]
    simp

theorem mem_firstKeys {κ ν : Type} [DecidableEq κ] (k : κ) :
    ∀ (ps : List (κ × ν)), k ∈ firstKeys ps ↔ k ∈ ps.map Prod.fst
  | [] => by simp [firstKeys]
  | p :: rest => by
    have ih := mem_firstKeys k rest
    by_cases h : k = p.1
    · subst h
      simp [firstKeys]
    · simp only [firstKeys, List.mem_cons, List.map_cons]
      constructor
      · rintro (e | hm)
        · exact Or.inl e
        · exact Or.inr (ih.mp (List.mem_filter.mp hm).1)
      · rintro (e | hm)
        · exact Or.inl e
        · refine Or.inr (List.mem_filter.mpr ⟨ih.mpr hm, ?_⟩)
          simp [h]

theorem firstKeys_nodup {κ ν : Type} [DecidableEq κ] :
    ∀ (ps : List (κ × ν)), (firstKeys ps).Nodup
  | [] => by simp [firstKeys]
  | p :: rest => by
    have ih := firstKeys_nodup (κ := κ) (ν := ν) rest
    simp only [firstKeys, List.nodup_cons]
    constructor
    · intro hmem
      have := (List.mem_filter.mp hmem).2
      simp at this
    · exact ih.filter _

theorem occCount_pos_mem {κ : Type} [DecidableEq κ] (k : κ) :
    ∀ (l : List κ), 0 < occCount k l → k ∈ l
  | [], h => by simp [occCount] at h
  | x :: l, h => by
    by_cases hx : x = k
    · exact hx ▸ List.mem_cons_self x l
    · have : 0 < occCount k l := by simpa [occCount, hx] using h
      exact List.mem_cons_of_mem x (occCount_pos_mem k l this)

theorem occCount_eq_zero {κ : Type} [DecidableEq κ] (k : κ) :
    ∀ (l : List κ), k ∉ l → occCount k l = 0
  | [], _ => rfl
  | x :: l, h => by
    have hx : ¬ x = k := fun e => h (e ▸ List.mem_cons_self x l)
    have hl : k ∉ l := fun e => h (List.mem_cons_of_mem x e)
    simp [occCount, hx, occCount_eq_zero k l hl]

theorem occCount_nodup {κ : Type} [DecidableEq κ] (k : κ) :
    ∀ (l : List κ), l.Nodup → k ∈ l → occCount k l = 1
  | [], _, h => by simp at h
  | x :: l, hnd, h => by
    have hnd2 := List.nodup_cons.mp hnd
    by_cases hx : x = k
    · subst hx
      simp [occCount, occCount_eq_zero x l hnd2.1]
    · have hm : k ∈ l := by
        rcases List.mem_cons.mp h with e | e
        · exact absurd e.symm hx
        · exact e
      simp [occCount, hx, occCount_nodup k l hnd2.2 hm]

theorem specChar_facts (c : Nat)
    (h : ((97 ≤ c && c ≤ 122) || (65 ≤ c && c ≤ 90) || (c == 95)) = true) :
    c ≠ 10 ∧ c < 128 := by
  simp only [Bool.or_eq_true, Bool.and_eq_true, decide_eq_true_eq, beq_iff_eq] at h
  omega

theorem specKey_bytes (k : Bytes) (h : specKeyGrammar k = true) :
    ∀ c ∈ k, c ≠ 10 ∧ c < 128 := by
  simp only [specKeyGrammar, Bool.and_eq_true, List.all_eq_true] at h
  intro c hc
  exact specChar_facts c (h.2 c hc)

theorem spec_imp_code (k : Bytes) (h : specKeyGrammar k = true) : codeKeyOk k = true := by
  simp only [specKeyGrammar, Bool.and_eq_true, List.all_eq_true] at h
  simp only [codeKeyOk, List.all_eq_true]
  intro c hc
  have hs := h.2 c hc
  simp only [Bool.or_eq_true, Bool.and_eq_true, decide_eq_true_eq, beq_iff_eq] at hs ⊢
  omega

theorem sendTokens_ok : ∀ (m : RawMsg), (∀ k ∈ m.map Prod.fst, specKeyGrammar k = true) →
    sendTokens m = .ok (pairTokens m)
  | [], _ => rfl
  | p :: rest, h => by
    have hk : codeKeyOk p.1 = true := spec_imp_code p.1 (h p.1 (by simp))
    have ih := sendTokens_ok rest (fun k hk2 => h k (by rw [List.map_cons]; exact List.mem_cons_of_mem _ hk2))
    simp [sendTokens, hk, ih, pairTokens]

theorem pairTokens_length : ∀ (m : RawMsg), (pairTokens m).length = 2 * m.length
  | [] => rfl
  | p :: rest => by
    simp [pairTokens, pairTokens_length rest]
    omega

theorem pairTokens_no_nl : ∀ (m : RawMsg),
    (∀ k ∈ m.map Prod.fst, specKeyGrammar k = true) →
    (∀ v ∈ m.map Prod.snd, ∀ b ∈ v, b < 256) →
    ∀ t ∈ pairTokens m, ∀ b ∈ t, b ≠ 10
  | [], _, _ => by simp [pairTokens]
  | p :: rest, hk, hv => by
    intro t ht b hb
    simp only [pairTokens, List.mem_cons] at ht
    rcases ht with e | e | e
    · subst e
      exact (specKey_bytes p.1 (hk p.1 (by simp)) b hb).1
    · subst e
      exact (b64encode_mem p.2 (hv p.2 (by simp)) b hb).2
    · exact pairTokens_no_nl rest (fun x h2 => hk x (by rw [List.map_cons]; exact List.mem_cons_of_mem _ h2))
        (fun v h2 => hv v (by rw [List.map_cons]; exact List.mem_cons_of_mem _ h2)) t e b hb

theorem readPairs_pairTokens : ∀ (ps : RawMsg) (acc : RawMsg),
    (∀ k ∈ ps.map Prod.fst, ∀ c ∈ k, c < 128) →
    (∀ v ∈ ps.map Prod.snd, ∀ b ∈ v, b < 256) →
    (∀ v ∈ ps.map Prod.snd, utf8Valid v = true) →
    readPairs (pairTokens ps) acc = .ok (fromPairsAux acc ps)
  | [], _, _, _, _ => rfl
  | p :: rest, acc, hk, hv, hu => by
    have hascii : p.1.all (· < 128) = true := by
      rw [List.all_eq_true]
      intro c hc
      simpa using hk p.1 (by simp) c hc
    have hdec := b64decode_b64encode p.2 (hv p.2 (by simp))
    have hutf8 : utf8Valid p.2 = true := hu p.2 (by simp)
    have ih := readPairs_pairTokens rest (dictInsert acc p.1 p.2)
      (fun x h2 => hk x (by rw [List.map_cons]; exact List.mem_cons_of_mem _ h2))
      (fun v h2 => hv v (by rw [List.map_cons]; exact List.mem_cons_of_mem _ h2))
      (fun v h2 => hu v (by rw [List.map_cons]; exact List.mem_cons_of_mem _ h2))
    simp [pairTokens, readPairs, hascii, hdec, hutf8, ih, fromPairsAux]

theorem from_pipe_pairTokens (ps : RawMsg) (hne : ps ≠ [])
    (hk : ∀ k ∈ ps.map Prod.fst, specKeyGrammar k = true)
    (hv : ∀ v ∈ ps.map Prod.snd, ∀ b ∈ v, b < 256)
    (hu : ∀ v ∈ ps.map Prod.snd, utf8Valid v = true) :
    from_pipe (joinNL (pairTokens ps)) = .ok (fromPairsAux [] ps) := by
  have htok_ne : pairTokens ps ≠ [] := by
    cases ps
    · exact absurd rfl hne
    · simp [pairTokens]
  have hsplit := splitNL_joinNL (pairTokens ps) htok_ne (pairTokens_no_nl ps hk hv)
  have hlen : (splitNL (joinNL (pairTokens ps))).length % 2 = 0 := by
    rw [hsplit, pairTokens_length]
    omega
  unfold from_pipe
  rw [if_pos hlen, hsplit]
  exact readPairs_pairTokens ps []
    (fun k hk2 c hc => ((specKey_bytes k (hk k hk2)) c hc).2) hv hu

/-- C1 counterexample: the zero key message serialises to the empty
byte stream, and decoding that stream fails with the odd token count
error rather than yielding the empty message back, because the empty
stream splits into a single empty token. -/
theorem C1_empty_message_fails :
    send_to_pipe ([] : RawMsg) = .ok [] ∧
    from_pipe [] = .error .oddTokenCount :=
  ⟨rfl, rfl⟩

/-- C1 amended: for every raw message with at least one entry, keys in
the key grammar and distinct, and values that are UTF-8 byte
sequences as every encoded text value is, decoding the byte stream
produced by encoding the message yields the message back unchanged. -/
theorem C1_roundtrip_nonempty (m : RawMsg) (hne : m ≠ [])
    (hkeys : ∀ k ∈ m.map Prod.fst, specKeyGrammar k = true)
    (hnodup : (m.map Prod.fst).Nodup)
    (hbytes : ∀ v ∈ m.map Prod.snd, ∀ b ∈ v, b < 256)
    (hutf8 : ∀ v ∈ m.map Prod.snd, utf8Valid v = true) :
    ∃ w, send_to_pipe m = .ok w ∧ from_pipe w = .ok m := by
  refine ⟨joinNL (pairTokens m), ?_, ?_⟩
  · unfold send_to_pipe
    rw [sendTokens_ok m hkeys]
  · rw [from_pipe_pairTokens m hne hkeys hbytes hutf8,
      fromPairsAux_of_nodup m [] hnodup (fun p _ => rfl)]
    simp

/-- C1 witness: the round trip evaluated on the one entry message with
key a and value the byte 98. -/
theorem C1_roundtrip_witness :
    ∃ w, send_to_pipe [([97], [98])] = .ok w ∧ from_pipe w = .ok [([97], [98])] :=
  C1_roundtrip_nonempty [([97], [98])] (by decide) (by decide) (by decide) (by decide)
    (by decide)

/-- C3: the encoder accepts the key consisting of the plus sign alone
and the empty key, although neither matches the documented key
grammar, because the regular expression in the source reads a to z,
A to Z, underscore or plus repeated zero or more times. -/
theorem C3_bad_keys_accepted :
    send_to_pipe [([43], [97])] = .ok [43, 10, 89, 81, 61, 61] ∧
    specKeyGrammar [43] = false ∧
    send_to_pipe [([], [])] = .ok [10] ∧
    specKeyGrammar [] = false :=
  ⟨rfl, rfl, rfl, rfl⟩

/-- C10: when the incoming token stream, well formed apart from the
repetition (keys in the grammar, values valid UTF-8), repeats a key,
decoding succeeds; the result carries the keys in order of first
occurrence, exactly one entry for the repeated key, and the value of
its last occurrence. -/
theorem C10_duplicate_keys (ps : RawMsg) (k : Bytes)
    (hdup : 2 ≤ occCount k (ps.map Prod.fst))
    (hkeys : ∀ x ∈ ps.map Prod.fst, specKeyGrammar x = true)
    (hbytes : ∀ v ∈ ps.map Prod.snd, ∀ b ∈ v, b < 256)
    (hutf8 : ∀ v ∈ ps.map Prod.snd, utf8Valid v = true) :
    ∃ M, from_pipe (joinNL (pairTokens ps)) = .ok M ∧
      M.map Prod.fst = firstKeys ps ∧
      occCount k (M.map Prod.fst) = 1 ∧
      dictGet k M = lastVal k ps := by
  have hmem : k ∈ ps.map Prod.fst := occCount_pos_mem k _ (by omega)
  have hne : ps ≠ [] := by
    intro e
    subst e
    simp at hmem
  have hK : (fromPairsAux [] ps).map Prod.fst = firstKeys ps := by
    have := fromPairsAux_keys ps []
    simpa [keyMem] using this
  refine ⟨fromPairsAux [] ps, from_pipe_pairTokens ps hne hkeys hbytes hutf8, hK, ?_, ?_⟩
  · rw [hK]
    exact occCount_nodup k _ (firstKeys_nodup ps) ((mem_firstKeys k ps).mpr hmem)
  · rw [fromPairsAux_get k ps []]
    cases hl : lastVal k ps
    · rfl
    · rfl

/-- C10 witness: the stream with key a bound to byte 120, key b bound
to byte 121, then key a again bound to byte 122, decodes to the two
entry message binding a to 122 in first position and b to 121. -/
theorem C10_duplicate_keys_witness :
    ∃ M, from_pipe (joinNL (pairTokens [([97], [120]), ([98], [121]), ([97], [122])])) = .ok M ∧
      M.map Prod.fst = firstKeys [([97], [120]), ([98], [121]), ([97], [122])] ∧
      occCount [97] (M.map Prod.fst) = 1 ∧
      dictGet [97] M = lastVal [97] [([97], [120]), ([98], [121]), ([97], [122])] :=
  C10_duplicate_keys [([97], [120]), ([98], [121]), ([97], [122])] [97]
    (by decide) (by decide) (by decide) (by decide)

theorem to_message_all_reject (r : List (String × String)) (c : String)
    (hr : dictGet "class" r = some c) :
    ∀ classes : List MsgClass, (∀ cls ∈ classes, cls.tag ≠ c) →
    to_message r classes = .error .wrongMessageClass
  | [], _ => rfl
  | cls :: rest, h => by
    have hne : ¬ c = cls.tag := fun e => h cls (by simp) e.symm
    have ih := to_message_all_reject r c hr rest (fun x hx => h x (List.mem_cons_of_mem _ hx))
    simp [to_message, messageInit, hr, hne, ih]

theorem to_message_first_match (r : List (String × String)) (c : String)
    (hr : dictGet "class" r = some c) :
    ∀ (pre : List MsgClass) (post : List MsgClass) (cls : MsgClass),
    (∀ x ∈ pre, x.tag ≠ c) → cls.tag = c →
    to_message r (pre ++ cls :: post) = .ok (cls, r)
  | [], post, cls, _, htag => by
    simp [to_message, messageInit, hr, htag]
  | x :: pre, post, cls, h, htag => by
    have hne : ¬ c = x.tag := fun e => h x (by simp) e.symm
    have ih := to_message_first_match r c hr pre post cls
      (fun y hy => h y (List.mem_cons_of_mem _ hy)) htag
    simp [to_message, messageInit, hr, hne, ih]

/-- C2 counterexample: a raw message carrying only the class entry of
TclProcedureResult constructs successfully although all three of its
documented mandatory keys, among them err_code, are absent. -/
theorem C2_missing_required_keys_accepted :
    messageInit TclProcedureResult [("class", "TclProcedureResult")] =
      .ok [("class", "TclProcedureResult")] ∧
    "err_code" ∈ TclProcedureResult.keys_required ∧
    dictGet "err_code" [("class", "TclProcedureResult")] = (none : Option String) :=
  ⟨rfl, by simp [TclProcedureResult], rfl⟩

/-- C2 amended: construction of a typed message from a raw message
carrying a class entry succeeds exactly when that entry equals the
class tag, with the required keys never inspected; the conversion
helper skips classes whose tag differs, returns the first class whose
tag matches, and raises the wrong class failure when no permitted
class matches. -/
theorem C2_class_tag_only (r : List (String × String)) (c : String)
    (hr : dictGet "class" r = some c) :
    (∀ cls : MsgClass, messageInit cls r =
      (if c = cls.tag then .ok r else .error .wrongMessageClass)) ∧
    (∀ classes : List MsgClass, (∀ cls ∈ classes, cls.tag ≠ c) →
      to_message r classes = .error .wrongMessageClass) ∧
    (∀ (pre post : List MsgClass) (cls : MsgClass), (∀ x ∈ pre, x.tag ≠ c) →
      cls.tag = c → to_message r (pre ++ cls :: post) = .ok (cls, r)) := by
  refine ⟨?_, to_message_all_reject r c hr, ?_⟩
  · intro cls
    unfold messageInit
    rw [hr]
  · intro pre post cls hpre htag
    exact to_message_first_match r c hr pre post cls hpre htag

/-- C2 witness: the raw message with class PyExit and no further keys
is rejected by TclHello and accepted by PyExit. -/
theorem C2_class_tag_only_witness :
    to_message [("class", "PyExit")] [TclHello, PyExit] =
      .ok (PyExit, [("class", "PyExit")]) :=
  (C2_class_tag_only [("class", "PyExit")] "PyExit" rfl).2.2 [TclHello] [] PyExit
    (by decide) rfl

mutual

theorem encode_total (o : PyObj) (n : Bool) (h : noEmptyDict o = true) :
    ∃ s, encode o n = Except.ok s := by
  cases o with
  | str s => exact ⟨_, rfl⟩
  | bool b => exact ⟨_, rfl⟩
  | ref idx v => cases n <;> exact ⟨_, rfl⟩
  | seq xs =>
    obtain ⟨ss, hss⟩ := encodeList_total xs (by simpa [noEmptyDict] using h)
    exact ⟨braceWrap (joinSpace ss), by simp [encode, hss]⟩
  | dict xs =>
    have h2 := h
    simp only [noEmptyDict, Bool.and_eq_true, Bool.not_eq_eq_eq_not, Bool.not_true] at h2
    obtain ⟨ss, hss⟩ := encodePairs_total xs h2.2
    refine ⟨braceWrap (joinSpace ss), ?_⟩
    simp only [encode, h2.1, hss]
    rfl

theorem encodeList_total (xs : List PyObj) (h : noEmptyDictList xs = true) :
    ∃ ss, encodeList xs = Except.ok ss := by
  cases xs with
  | nil => exact ⟨_, rfl⟩
  | cons x rest =>
    simp only [noEmptyDictList, Bool.and_eq_true] at h
    obtain ⟨s, hs⟩ := encode_total x true h.1
    obtain ⟨ss, hss⟩ := encodeList_total rest h.2
    exact ⟨s :: ss, by simp [encodeList, hs, hss]⟩

theorem encodePairs_total (xs : List (PyObj × PyObj)) (h : noEmptyDictPairs xs = true) :
    ∃ ss, encodePairs xs = Except.ok ss := by
  cases xs with
  | nil => exact ⟨_, rfl⟩
  | cons p rest =>
    obtain ⟨k, v⟩ := p
    simp only [noEmptyDictPairs, Bool.and_eq_true] at h
    obtain ⟨sk, hsk⟩ := encode_total k true h.1.1
    obtain ⟨sv, hsv⟩ := encode_total v true h.1.2
    obtain ⟨ss, hss⟩ := encodePairs_total rest h.2
    exact ⟨sk :: sv :: ss, by simp [encodePairs, hsk, hsv, hss]⟩

end

/-- C4 counterexample: the encoder raises on the empty mapping, since
the reduce over its items has no initial value. -/
theorem C4_empty_mapping_raises :
    encode (.dict []) false =
      .error "TypeError: reduce of empty iterable with no initial value" := rfl

/-- C4 amended: the encoder returns a string for every sequence,
mapping, remote handle or scalar input, including the empty sequence,
provided no empty mapping occurs anywhere inside the value. -/
theorem C4_encode_total (o : PyObj) (n : Bool) (h : noEmptyDict o = true) :
    ∃ s, encode o n = Except.ok s :=
  encode_total o n h

/-- C4 witness: a sequence holding a scalar and a one entry mapping
encodes successfully. -/
theorem C4_encode_total_witness :
    noEmptyDict (.seq [.str "x", .dict [(.str "a", .str "b")]]) = true ∧
    ∃ s, encode (.seq [.str "x", .dict [(.str "a", .str "b")]]) false = Except.ok s :=
  ⟨rfl, C4_encode_total (.seq [.str "x", .dict [(.str "a", .str "b")]]) false rfl⟩

/-- C5: a remote handle at top level encodes to exactly its reference
string naming the child side table at its index, while under the
nested flag, and hence inside any sequence, it encodes to its string
value wrapped in braces with inner braces backslash escaped. -/
theorem C5_handle_identity (i : Nat) (v : String) :
    encode (.ref i v) false = .ok (refStr i) ∧
    refStr i = "$cmd_results(" ++ toString i ++ ")" ∧
    encode (.ref i v) true = .ok (braceWrap (escapeBraces v)) ∧
    encode (.seq [.ref i v]) false = .ok (braceWrap (braceWrap (escapeBraces v))) := by
  refine ⟨rfl, rfl, rfl, ?_⟩
  simp [encode, encodeList, joinSpace]

/-- C6: the position policy composes the call as specified: first uses
the reference string as command name and prepends the method to the
positional arguments, second passes the handle as first positional
argument, last appends it, and any other policy value yields the
configuration error without building a command. -/
theorem C6_called_object_pos (idx : Nat) (value name : String) (args : List PyObj)
    (kwargs : List (String × PyObj)) :
    refProcCall "first" idx value name args kwargs =
      tclToolProcCall (refStr idx) (.str name :: args) kwargs ∧
    refProcCall "second" idx value name args kwargs =
      tclToolProcCall name (.ref idx value :: args) kwargs ∧
    refProcCall "last" idx value name args kwargs =
      tclToolProcCall name (args ++ [.ref idx value]) kwargs ∧
    ∀ pos : String, pos ≠ "first" → pos ≠ "second" → pos ≠ "last" →
      refProcCall pos idx value name args kwargs =
        .error "called_object_pos must be first, second or last." := by
  refine ⟨?_, ?_, ?_, ?_⟩
  · rw [refProcCall, if_pos rfl]
  · rw [refProcCall, if_neg (by decide), if_pos rfl]
  · rw [refProcCall, if_neg (by decide), if_neg (by decide), if_pos rfl]
  · intro pos h1 h2 h3
    rw [refProcCall, if_neg h1, if_neg h2, if_neg h3]

/-- C6 witness: an unknown position policy value produces the
configuration error. -/
theorem C6_called_object_pos_witness :
    refProcCall "top" 1 "v" "m" [] [] =
      .error "called_object_pos must be first, second or last." :=
  (C6_called_object_pos 1 "v" "m" [] []).2.2.2 "top" (by decide) (by decide) (by decide)

/-- C7 counterexample: after an evaluation whose response carries a
nonzero error code, the transport state is the send state, not the
receive state the claim names. -/
theorem C7_state_after_error :
    evalStep .WaitForSend "boom" 1 "syntax error" 0 = .tclErr .WaitForSend "syntax error" ∧
    BState.WaitForSend ≠ BState.WaitForRecv :=
  ⟨rfl, by decide⟩

/-- C7 amended: an evaluation with a nonzero error code raises the Tcl
error carrying the result text and leaves the transport in the send
state, the state in which the next send is permitted, so any
immediately following evaluation, failing or not, proceeds without a
precondition violation. -/
theorem C7_error_recovery (cmd result : String) (err idx : Int) (h : err ≠ 0) :
    evalStep .WaitForSend cmd err result idx = .tclErr .WaitForSend result ∧
    ∀ (cmd2 result2 : String) (err2 idx2 : Int),
      evalStep .WaitForSend cmd2 err2 result2 idx2 =
        if err2 ≠ 0 then .tclErr .WaitForSend result2
        else .ok .WaitForSend ⟨idx2, result2, cmd2⟩ := by
  constructor
  · simp [evalStep, send_raw, recv_raw, h]
  · intro cmd2 result2 err2 idx2
    by_cases h2 : err2 ≠ 0 <;> simp [evalStep, send_raw, recv_raw, h2]

/-- C7 witness: the amended statement evaluated at error code two. -/
theorem C7_error_recovery_witness :
    evalStep .WaitForSend "boom" 2 "err" 0 = .tclErr .WaitForSend "err" ∧
    ∀ (cmd2 result2 : String) (err2 idx2 : Int),
      evalStep .WaitForSend cmd2 err2 result2 idx2 =
        if err2 ≠ 0 then .tclErr .WaitForSend result2
        else .ok .WaitForSend ⟨idx2, result2, cmd2⟩ :=
  C7_error_recovery "boom" "err" 2 0 (by decide)

/-- C8: when the body ends with the early exit signal, the scope
propagates that signal without any exit code, performs no exit
message send, and never raises the called process error carrying the
observed return code, here shown for observed codes one and zero. -/
theorem C8_early_death_outcome :
    (contextExit .raisedEarlyExit false true false 1).outcome = .childEarlyExit ∧
    (contextExit .raisedEarlyExit false true false 1).outcome ≠ .calledProcessError 1 ∧
    (contextExit .raisedEarlyExit false true false 0).outcome = .childEarlyExit ∧
    (contextExit .raisedEarlyExit false true false 1).sentPyExit = false :=
  ⟨rfl, by decide, rfl, rfl⟩

/-- C9: a send attempted in the receive state and a receive attempted
in the send state each fail the leading precondition with no pipe
action performed and the transport state unchanged. -/
theorem C9_state_machine_safety :
    send_raw .WaitForRecv = ⟨[], .WaitForRecv, false⟩ ∧
    recv_raw .WaitForSend = ⟨[], .WaitForSend, false⟩ :=
  ⟨rfl, rfl⟩

end NoTcl
